import Mathlib

/-!
Verification of the `astrbox` native extension module (src/astrbox/src/lib.rs).

The source declares one exported function `hello_from_bin` and a `#[pymodule]`
`core` that binds it directly (`#[pymodule_export] use super::hello_from_bin;`)
and again inside a nested `#[pymodule] mod cli`.  We embed the module tree that
the PyO3 attribute macros assemble, the function registry, and — modelled from
the spec's Module Tree Builder contract, since the tree-assembly machinery
lives in the PyO3 macro layer rather than under src/ — a `build` operation on
namespace layouts, and prove the spec's claims about them.
-/

set_option autoImplicit false

namespace Astrbox

/-- The exported function from lib.rs lines 3-6:
`fn hello_from_bin() -> String { "Hello from astrbox!".to_string() }`.
It takes no arguments (modelled as `Unit`) and returns a `String`. -/
def hello_from_bin : Unit → String := fun _ => "Hello from astrbox!"

/-- Identifier of `hello_from_bin` in the function registry.  Exported
functions are compared by identity (which registered native routine they
are), not by the values they compute, so the tree stores ids. -/
def helloFromBinId : Nat := 0

/-- The Function Registry: the compile-time declared set of natively
implemented callables, keyed by id.  lib.rs declares exactly one,
`hello_from_bin` with id `helloFromBinId`. -/
def registry : Nat → Option (Unit → String) :=
  fun i => if i = 0 then some hello_from_bin else none

/-- A node of the namespace hierarchy: either a binding of an exported
function (by registry id) or a module with a mapping from local names to
child nodes (an association list, first match wins). -/
inductive Tree (α : Type) where
  | func (f : α)
  | modl (entries : List (String × Tree α))

/-- First-match lookup of a local name among a node's entries. -/
def lookupChild {α : Type} : List (String × Tree α) → String → Option (Tree α)
  | [], _ => none
  | (k, t) :: rest, n => if k = n then some t else lookupChild rest n

/-- Replace the first binding of `k` among the entries (append if absent). -/
def setChild {α : Type} : List (String × Tree α) → String → Tree α → List (String × Tree α)
  | [], k, t => [(k, t)]
  | (k', t') :: rest, k, t =>
    if k' = k then (k, t) :: rest else (k', t') :: setChild rest k t

/-- Resolve a dotted path from a node, one segment at a time. -/
def lookupPath {α : Type} : Tree α → List String → Option (Tree α)
  | t, [] => some t
  | .func _, _ :: _ => none
  | .modl es, seg :: rest =>
    match lookupChild es seg with
    | none => none
    | some c => lookupPath c rest

/-- The nested `cli` sub-module from lib.rs lines 15-19: it re-exports
`hello_from_bin` (`#[pymodule_export] use super::hello_from_bin;`). -/
def cli : Tree Nat := .modl [("hello_from_bin", .func helloFromBinId)]

/-- The root module `core` from lib.rs lines 8-20: binds `hello_from_bin`
directly and contains the nested sub-module `cli`. -/
def core : Tree Nat := .modl [("hello_from_bin", .func helloFromBinId), ("cli", cli)]

/-- Resolve a path to a function binding and invoke it through the registry. -/
def callAt (t : Tree Nat) (q : List String) : Option String :=
  match lookupPath t q with
  | some (.func i) => (registry i).map (fun f => f ())
  | _ => none

/-- Errors of the invocation layer: a called function failing internally. -/
inductive InvocationError where
  | failure (msg : String)

/-- The PyO3 call boundary for `hello_from_bin`: the Rust signature returns
`String` (not `PyResult`), so the call is infallible and the result is always
`Ok`. -/
def invokeHello : Unit → Except InvocationError String :=
  fun u => .ok (hello_from_bin u)

/-- Modelled from the spec: the `ConfigurationError` of the Module Tree
Builder.  The tree-assembly machinery is generated by the PyO3 macro layer
and is not under src/; the spec specifies it as `build(layout)` failing at
build time on conflicting bindings. -/
inductive ConfigError where
  | duplicateBinding (path : List String) (name : String)
  | pathBlocked (path : List String)
deriving DecidableEq

/-- One entry of a namespace layout: bind function `fn` under local name
`name` at the module reached by `path` from the root. -/
structure LayoutEntry (α : Type) where
  path : List String
  name : String
  fn : α
deriving DecidableEq

/-- The full dotted path at which a layout entry's function is reachable. -/
def fullPath {α : Type} (e : LayoutEntry α) : List String := e.path ++ [e.name]

/-- Modelled from the spec: insert one binding into the tree, creating
intermediate Module Nodes as needed.  Fails with a `ConfigError` when a path
segment is already bound to a function, or when the target name is already
bound to a module or to a different function; rebinding the identical
function is the aliasing re-export the spec allows. -/
def insertPath {α : Type} [DecidableEq α] :
    Tree α → List String → String → α → Except ConfigError (Tree α)
  | .func _, p, _, _ => .error (.pathBlocked p)
  | .modl es, [], n, f =>
    match lookupChild es n with
    | none => .ok (.modl (setChild es n (.func f)))
    | some (.func g) =>
      if g = f then .ok (.modl es) else .error (.duplicateBinding [] n)
    | some (.modl _) => .error (.duplicateBinding [] n)
  | .modl es, seg :: rest, n, f =>
    match insertPath ((lookupChild es seg).getD (.modl [])) rest n f with
    | .ok child => .ok (.modl (setChild es seg child))
    | .error e => .error e

/-- Fold layout entries in order into a starting tree; any insertion error
aborts the build (fail closed, no partial tree is published). -/
def buildFrom {α : Type} [DecidableEq α] (t : Tree α) :
    List (LayoutEntry α) → Except ConfigError (Tree α)
  | [] => .ok t
  | e :: rest =>
    match insertPath t e.path e.name e.fn with
    | .ok t' => buildFrom t' rest
    | .error err => .error err

/-- Modelled from the spec: `build(layout) -> RootModule`, assembling the
layout entries in order into an initially empty root module. -/
def build {α : Type} [DecidableEq α] (layout : List (LayoutEntry α)) :
    Except ConfigError (Tree α) :=
  buildFrom (.modl []) layout

/-- `isInit q p` decides whether `q` is an initial segment of the path `p`. -/
def isInit : List String → List String → Bool
  | [], _ => true
  | _ :: _, [] => false
  | a :: as, b :: bs => a = b && isInit as bs

/-- Two layout entries conflict when they bind different functions at the
same full path, or when the full path of one is an initial segment of the
other's module path (a function where a module is required, or vice versa). -/
def conflicts {α : Type} [DecidableEq α] (e1 e2 : LayoutEntry α) : Bool :=
  (fullPath e1 = fullPath e2 && e1.fn ≠ e2.fn) ||
    isInit (fullPath e1) e2.path || isInit (fullPath e2) e1.path

/-- The namespace layout that lib.rs declares for the root module `core`:
`hello_from_bin` bound at the root (lines 12-13) and re-exported inside the
nested sub-module `cli` (lines 15-19). -/
def coreLayout : List (LayoutEntry Nat) :=
  [⟨[], "hello_from_bin", helloFromBinId⟩, ⟨["cli"], "hello_from_bin", helloFromBinId⟩]

/-- Modelled from the spec: the load-time entry point the `#[pymodule]`
attribute on `core` generates (`PyInit_core`).  It takes no arguments and
returns the Root Module handle, or fails the load. -/
def pyInit_core : Unit → Except ConfigError (Tree Nat) :=
  fun _ => build coreLayout

/-- Modelled from the spec: the set of externally visible load-time symbols
of the extension.  lib.rs has exactly one top-level `#[pymodule]` (`core`,
line 8); the nested `cli` is exported only through its parent. -/
def entryPoints : List (String × (Unit → Except ConfigError (Tree Nat))) :=
  [("PyInit_core", pyInit_core)]

/-- An operation the host may perform on the tree after hand-off: resolving
a dotted path or calling an exported function at a path. -/
inductive HostOp where
  | resolve (q : List String)
  | call (q : List String)

/-- Modelled from the spec: the read-only post-build interface.  Running one
host operation returns the (unchanged) tree together with the observed
result; the core offers no mutating operation after build. -/
def runOp (t : Tree Nat) : HostOp → Tree Nat × Option String
  | .resolve q => (t, (lookupPath t q).map (fun _ => String.intercalate "." q))
  | .call q => (t, callAt t q)

/-- Run a whole sequence of host operations, threading the tree through. -/
def runOps (t : Tree Nat) : List HostOp → Tree Nat
  | [] => t
  | op :: rest => runOps (runOp t op).1 rest

/-- Modelled from the spec: the flat alternative registration layout the
spec's open question describes — a flat top-level `cli` module exposing the
function directly, with no nested re-export. -/
def flatCliLayout : List (LayoutEntry Nat) :=
  [⟨[], "hello_from_bin", helloFromBinId⟩]

mutual

/-- Number of nodes of a tree; its existence as a total function witnesses
that every tree of the embedding is finite. -/
def treeSize {α : Type} : Tree α → Nat
  | .func _ => 1
  | .modl es => 1 + entriesSize es

/-- Total node count of a list of entries. -/
def entriesSize {α : Type} : List (String × Tree α) → Nat
  | [] => 0
  | (_, t) :: rest => treeSize t + entriesSize rest

end

/-- Does some entry bind the local name `n`? -/
def hasKey {α : Type} : List (String × Tree α) → String → Bool
  | [], _ => false
  | (k, _) :: rest, n => k = n || hasKey rest n

mutual

/-- Keys are unique within every Module Node of the tree. -/
def keysOk {α : Type} : Tree α → Bool
  | .func _ => true
  | .modl es => entriesOk es

/-- Keys are pairwise distinct in this entry list and in every subtree. -/
def entriesOk {α : Type} : List (String × Tree α) → Bool
  | [] => true
  | (k, t) :: rest => !hasKey rest k && keysOk t && entriesOk rest

end

mutual

/-- Does the function with id `i` appear somewhere under the tree? -/
def funcOccurs {α : Type} [DecidableEq α] (i : α) : Tree α → Bool
  | .func f => f = i
  | .modl es => occursIn i es

/-- Does the function with id `i` appear under some entry of the list? -/
def occursIn {α : Type} [DecidableEq α] (i : α) : List (String × Tree α) → Bool
  | [] => false
  | (_, t) :: rest => funcOccurs i t || occursIn i rest

end

theorem lookupChild_setChild_self {α : Type} (es : List (String × Tree α)) (k : String)
    (t : Tree α) : lookupChild (setChild es k t) k = some t := by
  induction es with
  | nil => simp [setChild, lookupChild]
  | cons e rest ih =>
    obtain ⟨k', t'⟩ := e
    by_cases h : k' = k <;> simp [setChild, lookupChild, h, ih]

theorem lookupChild_setChild_other {α : Type} (es : List (String × Tree α)) (k k' : String)
    (t : Tree α) (hne : k' ≠ k) :
    lookupChild (setChild es k t) k' = lookupChild es k' := by
  induction es with
  | nil => simp [setChild, lookupChild, Ne.symm hne]
  | cons e rest ih =>
    obtain ⟨k0, t0⟩ := e
    by_cases h : k0 = k
    · subst h
      simp [setChild, lookupChild, Ne.symm hne]
    · by_cases h' : k0 = k' <;> simp [setChild, lookupChild, h, h', hne, ih]

theorem insertPath_ok_modl {α : Type} [DecidableEq α] {t t' : Tree α} {p : List String}
    {n : String} {f : α} (h : insertPath t p n f = .ok t') : ∃ es, t' = .modl es := by
  cases t with
  | func g => simp [insertPath] at h
  | modl es =>
    cases p with
    | nil =>
      simp only [insertPath] at h
      split at h
      · exact ⟨_, (Except.ok.inj h).symm⟩
      · split at h
        · exact ⟨_, (Except.ok.inj h).symm⟩
        · cases h
      · cases h
    | cons seg rest =>
      simp only [insertPath] at h
      split at h
      · exact ⟨_, (Except.ok.inj h).symm⟩
      · cases h

theorem insertPath_lookup_self {α : Type} [DecidableEq α] :
    ∀ (p : List String) (t t' : Tree α) (n : String) (f : α),
      insertPath t p n f = .ok t' → lookupPath t' (p ++ [n]) = some (.func f) := by
  intro p
  induction p with
  | nil =>
    intro t t' n f h
    cases t with
    | func g => simp [insertPath] at h
    | modl es =>
      simp only [insertPath] at h
      split at h
      · cases h
        simp [lookupPath, lookupChild_setChild_self]
      · next g hl =>
        split at h
        · next hg =>
          cases h
          subst hg
          simp [lookupPath, hl]
        · cases h
      · cases h
  | cons seg rest ih =>
    intro t t' n f h
    cases t with
    | func g => simp [insertPath] at h
    | modl es =>
      simp only [insertPath] at h
      split at h
      · next child hc =>
        cases h
        simp only [List.cons_append, lookupPath, lookupChild_setChild_self]
        exact ih _ _ _ _ hc
      · cases h

theorem insertPath_modl_along {α : Type} [DecidableEq α] :
    ∀ (p : List String) (t t' : Tree α) (n : String) (f : α) (q : List String),
      insertPath t p n f = .ok t' → isInit q p = true →
      ∃ es, lookupPath t' q = some (.modl es) := by
  intro p
  induction p with
  | nil =>
    intro t t' n f q h hq
    cases q with
    | nil =>
      obtain ⟨es, rfl⟩ := insertPath_ok_modl h
      exact ⟨es, rfl⟩
    | cons a as => simp [isInit] at hq
  | cons seg rest ih =>
    intro t t' n f q h hq
    cases q with
    | nil =>
      obtain ⟨es, rfl⟩ := insertPath_ok_modl h
      exact ⟨es, rfl⟩
    | cons a as =>
      cases t with
      | func g => simp [insertPath] at h
      | modl es =>
        simp only [insertPath] at h
        split at h
        · next child hc =>
          cases h
          simp only [isInit, Bool.and_eq_true, decide_eq_true_eq] at hq
          obtain ⟨rfl, has⟩ := hq
          simp only [lookupPath, lookupChild_setChild_self]
          exact ih _ _ _ _ _ hc has
        · cases h

theorem insertPath_preserves_fn {α : Type} [DecidableEq α] :
    ∀ (p : List String) (t t' : Tree α) (n : String) (f : α) (q : List String) (m : String)
      (g : α), insertPath t p n f = .ok t' →
      lookupPath t (q ++ [m]) = some (.func g) →
      lookupPath t' (q ++ [m]) = some (.func g) := by
  intro p
  induction p with
  | nil =>
    intro t t' n f q m g h hq
    cases t with
    | func g0 => simp [insertPath] at h
    | modl es =>
      simp only [insertPath] at h
      split at h
      · next hl =>
        cases h
        cases q with
        | nil =>
          simp only [List.nil_append, lookupPath] at hq ⊢
          split at hq
          · cases hq
          · next c hm =>
            have hmn : m ≠ n := by
              intro hcontra; rw [hcontra, hl] at hm; cases hm
            rw [lookupChild_setChild_other es n m _ hmn, hm]
            exact hq
        | cons a as =>
          simp only [List.cons_append, lookupPath] at hq ⊢
          split at hq
          · cases hq
          · next c hm =>
            have han : a ≠ n := by
              intro hcontra; rw [hcontra, hl] at hm; cases hm
            rw [lookupChild_setChild_other es n a _ han, hm]
            exact hq
      · next g0 hl =>
        split at h
        · cases h; exact hq
        · cases h
      · cases h
  | cons seg rest ih =>
    intro t t' n f q m g h hq
    cases t with
    | func g0 => simp [insertPath] at h
    | modl es =>
      simp only [insertPath] at h
      split at h
      · next child hc =>
        cases h
        cases q with
        | nil =>
          simp only [List.nil_append, lookupPath] at hq ⊢
          split at hq
          · cases hq
          · next c hm =>
            by_cases hms : m = seg
            · subst hms
              rw [hm] at hc
              cases hq
              simp [insertPath] at hc
            · rw [lookupChild_setChild_other es seg m _ hms, hm]
              exact hq
        | cons a as =>
          simp only [List.cons_append, lookupPath] at hq ⊢
          split at hq
          · cases hq
          · next c hm =>
            by_cases has : a = seg
            · subst has
              rw [hm] at hc
              rw [lookupChild_setChild_self]
              exact ih c child n f as m g hc hq
            · rw [lookupChild_setChild_other es seg a _ has, hm]
              exact hq
      · cases h

theorem insertPath_preserves_modl {α : Type} [DecidableEq α] :
    ∀ (p : List String) (t t' : Tree α) (n : String) (f : α) (q : List String)
      (es0 : List (String × Tree α)), insertPath t p n f = .ok t' →
      lookupPath t q = some (.modl es0) →
      ∃ es1, lookupPath t' q = some (.modl es1) := by
  intro p
  induction p with
  | nil =>
    intro t t' n f q es0 h hq
    cases t with
    | func g0 => simp [insertPath] at h
    | modl es =>
      simp only [insertPath] at h
      split at h
      · next hl =>
        cases h
        cases q with
        | nil => exact ⟨_, rfl⟩
        | cons a as =>
          simp only [lookupPath] at hq ⊢
          split at hq
          · cases hq
          · next c hm =>
            have han : a ≠ n := by
              intro hcontra; rw [hcontra, hl] at hm; cases hm
            rw [lookupChild_setChild_other es n a _ han, hm]
            exact ⟨es0, hq⟩
      · next g0 hl =>
        split at h
        · cases h; exact ⟨es0, hq⟩
        · cases h
      · cases h
  | cons seg rest ih =>
    intro t t' n f q es0 h hq
    cases t with
    | func g0 => simp [insertPath] at h
    | modl es =>
      simp only [insertPath] at h
      split at h
      · next child hc =>
        cases h
        cases q with
        | nil => exact ⟨_, rfl⟩
        | cons a as =>
          simp only [lookupPath] at hq ⊢
          split at hq
          · cases hq
          · next c hm =>
            by_cases has : a = seg
            · subst has
              rw [hm] at hc
              rw [lookupChild_setChild_self]
              exact ih c child n f as es0 hc hq
            · rw [lookupChild_setChild_other es seg a _ has, hm]
              exact ⟨es0, hq⟩
      · cases h

theorem insertPath_conflict_error {α : Type} [DecidableEq α] :
    ∀ (p : List String) (t : Tree α) (n : String) (f g : α),
      lookupPath t (p ++ [n]) = some (.func g) → g ≠ f →
      ∃ e, insertPath t p n f = .error e := by
  intro p
  induction p with
  | nil =>
    intro t n f g hq hne
    cases t with
    | func g0 => simp [lookupPath] at hq
    | modl es =>
      simp only [List.nil_append, lookupPath] at hq
      split at hq
      · cases hq
      · next c hm =>
        cases hq
        exact ⟨.duplicateBinding [] n, by simp [insertPath, hm, hne]⟩
  | cons seg rest ih =>
    intro t n f g hq hne
    cases t with
    | func g0 => simp [lookupPath] at hq
    | modl es =>
      simp only [List.cons_append, lookupPath] at hq
      split at hq
      · cases hq
      · next c hm =>
        obtain ⟨e, he⟩ := ih c n f g hq hne
        exact ⟨e, by simp [insertPath, hm, he]⟩

theorem insertPath_empty_ok {α : Type} [DecidableEq α] :
    ∀ (p : List String) (n : String) (f : α),
      ∃ u, insertPath (Tree.modl ([] : List (String × Tree α))) p n f = .ok u := by
  intro p
  induction p with
  | nil => intro n f; exact ⟨_, rfl⟩
  | cons seg rest ih =>
    intro n f
    obtain ⟨u, hu⟩ := ih n f
    exact ⟨.modl (setChild [] seg u), by simp [insertPath, lookupChild, hu]⟩

theorem buildFrom_append {α : Type} [DecidableEq α] :
    ∀ (xs ys : List (LayoutEntry α)) (t : Tree α),
      buildFrom t (xs ++ ys) =
        match buildFrom t xs with
        | .ok t' => buildFrom t' ys
        | .error e => .error e := by
  intro xs
  induction xs with
  | nil => intro ys t; rfl
  | cons x xs ih =>
    intro ys t
    simp only [List.cons_append, buildFrom]
    cases hx : insertPath t x.path x.name x.fn with
    | ok t1 => exact ih ys t1
    | error e => rfl

theorem buildFrom_preserves_fn {α : Type} [DecidableEq α] :
    ∀ (l : List (LayoutEntry α)) (t t' : Tree α) (q : List String) (m : String) (g : α),
      buildFrom t l = .ok t' → lookupPath t (q ++ [m]) = some (.func g) →
      lookupPath t' (q ++ [m]) = some (.func g) := by
  intro l
  induction l with
  | nil =>
    intro t t' q m g h hq
    cases h
    exact hq
  | cons e rest ih =>
    intro t t' q m g h hq
    simp only [buildFrom] at h
    split at h
    · next t1 h1 =>
      exact ih t1 t' q m g h (insertPath_preserves_fn e.path t t1 e.name e.fn q m g h1 hq)
    · cases h

theorem conflicts_cons {α : Type} [DecidableEq α] (s : String) (p1 p2 : List String)
    (n1 n2 : String) (f1 f2 : α) :
    conflicts ⟨s :: p1, n1, f1⟩ ⟨s :: p2, n2, f2⟩ = conflicts ⟨p1, n1, f1⟩ ⟨p2, n2, f2⟩ := by
  simp [conflicts, fullPath, isInit]

theorem insertPath_ok_mono {α : Type} [DecidableEq α] :
    ∀ (p1 : List String) (t t1 : Tree α) (n1 : String) (f1 : α) (p2 : List String)
      (n2 : String) (f2 : α),
      insertPath t p1 n1 f1 = .ok t1 →
      conflicts ⟨p1, n1, f1⟩ ⟨p2, n2, f2⟩ = false →
      (∃ u, insertPath t p2 n2 f2 = .ok u) →
      ∃ u, insertPath t1 p2 n2 f2 = .ok u := by
  intro p1
  induction p1 with
  | nil =>
    intro t t1 n1 f1 p2 n2 f2 h hconf hex
    cases t with
    | func g0 => simp [insertPath] at h
    | modl es =>
      simp only [insertPath] at h
      split at h
      · next hl =>
        cases h
        cases p2 with
        | nil =>
          have key : n1 = n2 → f1 = f2 := by
            intro hn
            by_contra hf
            simp [conflicts, fullPath, isInit, hn, hf] at hconf
          obtain ⟨u, hu⟩ := hex
          simp only [insertPath] at hu ⊢
          split at hu
          · next hl2 =>
            by_cases hnn : n2 = n1
            · subst hnn
              have hf : f1 = f2 := key rfl
              exact ⟨_, by simp [lookupChild_setChild_self, hf]; rfl⟩
            · exact ⟨_, by simp [lookupChild_setChild_other es n1 n2 _ hnn, hl2]; rfl⟩
          · next g hl2 =>
            split at hu
            · next hg =>
              by_cases hnn : n2 = n1
              · subst hnn
                rw [hl] at hl2
                cases hl2
              · exact ⟨_, by simp [lookupChild_setChild_other es n1 n2 _ hnn, hl2, hg]; rfl⟩
            · cases hu
          · cases hu
        | cons seg2 rest2 =>
          have hn1 : n1 ≠ seg2 := by
            intro hcontra
            simp [conflicts, fullPath, isInit, hcontra] at hconf
          obtain ⟨u, hu⟩ := hex
          simp only [insertPath] at hu ⊢
          split at hu
          · next child2 hc2 =>
            refine ⟨.modl (setChild (setChild es n1 (.func f1)) seg2 child2), ?_⟩
            rw [lookupChild_setChild_other es n1 seg2 _ (Ne.symm hn1), hc2]
          · cases hu
      · next g0 hl =>
        split at h
        · cases h
          exact hex
        · cases h
      · cases h
  | cons seg1 rest1 ih =>
    intro t t1 n1 f1 p2 n2 f2 h hconf hex
    cases t with
    | func g0 => simp [insertPath] at h
    | modl es =>
      simp only [insertPath] at h
      split at h
      · next child1 hc1 =>
        cases h
        cases p2 with
        | nil =>
          have hn2 : n2 ≠ seg1 := by
            intro hcontra
            simp [conflicts, fullPath, isInit, hcontra] at hconf
          obtain ⟨u, hu⟩ := hex
          simp only [insertPath] at hu ⊢
          split at hu
          · next hl2 =>
            exact ⟨_, by simp [lookupChild_setChild_other es seg1 n2 _ hn2, hl2]; rfl⟩
          · next g hl2 =>
            split at hu
            · next hg =>
              exact ⟨_, by simp [lookupChild_setChild_other es seg1 n2 _ hn2, hl2, hg]; rfl⟩
            · cases hu
          · cases hu
        | cons seg2 rest2 =>
          by_cases hss : seg2 = seg1
          · subst hss
            have hconf' : conflicts ⟨rest1, n1, f1⟩ ⟨rest2, n2, f2⟩ = false := by
              rw [conflicts_cons] at hconf
              exact hconf
            obtain ⟨u, hu⟩ := hex
            simp only [insertPath] at hu ⊢
            split at hu
            · next child2 hc2 =>
              obtain ⟨u', hu'⟩ :=
                ih ((lookupChild es seg2).getD (.modl [])) child1 n1 f1 rest2 n2 f2 hc1
                  hconf' ⟨child2, hc2⟩
              refine ⟨.modl (setChild (setChild es seg2 child1) seg2 u'), ?_⟩
              rw [lookupChild_setChild_self]
              simp only [Option.getD_some]
              rw [hu']
            · cases hu
          · obtain ⟨u, hu⟩ := hex
            simp only [insertPath] at hu ⊢
            split at hu
            · next child2 hc2 =>
              refine ⟨.modl (setChild (setChild es seg1 child1) seg2 child2), ?_⟩
              rw [lookupChild_setChild_other es seg1 seg2 _ hss, hc2]
            · cases hu
      · cases h

theorem buildFrom_spec {α : Type} [DecidableEq α] :
    ∀ (layout : List (LayoutEntry α)) (t : Tree α),
      layout.Pairwise (fun a b => conflicts a b = false) →
      (∀ e ∈ layout, ∃ u, insertPath t e.path e.name e.fn = .ok u) →
      ∃ t', buildFrom t layout = .ok t' ∧
        (∀ e ∈ layout, lookupPath t' (fullPath e) = some (.func e.fn)) ∧
        (∀ e ∈ layout, ∀ q, isInit q e.path = true →
          ∃ es, lookupPath t' q = some (.modl es)) ∧
        (∀ q m g, lookupPath t (q ++ [m]) = some (.func g) →
          lookupPath t' (q ++ [m]) = some (.func g)) ∧
        (∀ q es0, lookupPath t q = some (.modl es0) →
          ∃ es1, lookupPath t' q = some (.modl es1)) := by
  intro layout
  induction layout with
  | nil =>
    intro t _ _
    exact ⟨t, rfl, fun e he => absurd he (List.not_mem_nil e),
      fun e he => absurd he (List.not_mem_nil e),
      fun q m g h => h, fun q es0 h => ⟨es0, h⟩⟩
  | cons e rest ih =>
    intro t hpw hfit
    obtain ⟨t1, h1⟩ := hfit e (List.mem_cons_self e rest)
    have hpw_head : ∀ b ∈ rest, conflicts e b = false := (List.pairwise_cons.mp hpw).1
    have hpw_rest := (List.pairwise_cons.mp hpw).2
    have hfit1 : ∀ e' ∈ rest, ∃ u, insertPath t1 e'.path e'.name e'.fn = .ok u := by
      intro e' he'
      exact insertPath_ok_mono e.path t t1 e.name e.fn e'.path e'.name e'.fn h1
        (hpw_head e' he') (hfit e' (List.mem_cons_of_mem e he'))
    obtain ⟨t', hb, hfn, hmod, hpF, hpM⟩ := ih t1 hpw_rest hfit1
    refine ⟨t', ?_, ?_, ?_, ?_, ?_⟩
    · simp only [buildFrom, h1]
      exact hb
    · intro e' he'
      rcases List.mem_cons.mp he' with rfl | hmem
      · exact hpF e'.path e'.name e'.fn (insertPath_lookup_self e'.path t t1 e'.name e'.fn h1)
      · exact hfn e' hmem
    · intro e' he' q hq
      rcases List.mem_cons.mp he' with rfl | hmem
      · obtain ⟨es2, hes2⟩ := insertPath_modl_along e'.path t t1 e'.name e'.fn q h1 hq
        exact hpM q es2 hes2
      · exact hmod e' hmem q hq
    · intro q m g hg
      exact hpF q m g (insertPath_preserves_fn e.path t t1 e.name e.fn q m g h1 hg)
    · intro q es0 h0
      obtain ⟨es1, hes1⟩ := insertPath_preserves_modl e.path t t1 e.name e.fn q es0 h1 h0
      exact hpM q es1 hes1

theorem lookupChild_size_lt {α : Type} :
    ∀ (es : List (String × Tree α)) (k : String) (c : Tree α),
      lookupChild es k = some c → treeSize c < treeSize (.modl es) := by
  intro es
  induction es with
  | nil => intro k c h; cases h
  | cons e rest ih =>
    intro k c h
    obtain ⟨k0, t0⟩ := e
    simp only [lookupChild] at h
    split at h
    · cases h
      simp only [treeSize, entriesSize]
      omega
    · have := ih k c h
      simp only [treeSize, entriesSize] at this ⊢
      omega

theorem lookupPath_size_lt {α : Type} :
    ∀ (r : List String) (t t' : Tree α), r ≠ [] → lookupPath t r = some t' →
      treeSize t' < treeSize t := by
  intro r
  induction r with
  | nil => intro t t' h _; exact absurd rfl h
  | cons seg rest ih =>
    intro t t' _ hl
    cases t with
    | func g => simp [lookupPath] at hl
    | modl es =>
      simp only [lookupPath] at hl
      split at hl
      · cases hl
      · next c hm =>
        cases rest with
        | nil =>
          simp only [lookupPath] at hl
          cases hl
          exact lookupChild_size_lt es seg _ hm
        | cons b bs =>
          have h1 := ih c t' (by simp) hl
          have h2 := lookupChild_size_lt es seg c hm
          omega

/-- C1: in the layout that binds `hello_from_bin` both directly under the
root module and under the nested `cli` sub-module, both `core.hello_from_bin()`
and `core.cli.hello_from_bin()` return the text "Hello from astrbox!". -/
theorem c1_both_paths_return_hello :
    callAt core ["hello_from_bin"] = some "Hello from astrbox!" ∧
    callAt core ["cli", "hello_from_bin"] = some "Hello from astrbox!" := by
  constructor <;> rfl

/-- C2: the binding of `hello_from_bin` at the root and the binding inside
`cli` resolve to the identical registered function (the same registry id,
hence the same underlying native implementation, not a copy): the two
lookups are equal and both name `helloFromBinId`, whose single registry
entry is `hello_from_bin`. -/
theorem c2_reexport_identity :
    lookupPath core ["hello_from_bin"] = some (.func helloFromBinId) ∧
    lookupPath core ["cli", "hello_from_bin"] = some (.func helloFromBinId) ∧
    registry helloFromBinId = some hello_from_bin := by
  refine ⟨rfl, rfl, ?_⟩
  rfl

/-- C5: exported functions are pure: two calls of `hello_from_bin` with
identical (empty) argument tuples return the identical result, and that
result is always the text "Hello from astrbox!". -/
theorem c5_purity :
    (∀ u v : Unit, hello_from_bin u = hello_from_bin v) ∧
    hello_from_bin () = "Hello from astrbox!" :=
  ⟨fun _ _ => rfl, rfl⟩

/-- C10: `hello_from_bin` is total: for every invocation it terminates and
returns a string without error, so the `InvocationError` propagation path of
the namespace layer is unreachable for this function: the call boundary
always yields `Except.ok`. -/
theorem c10_hello_total :
    ∀ u : Unit, invokeHello u = .ok "Hello from astrbox!" :=
  fun _ => rfl

/-- Each host operation leaves the tree unchanged: the post-build interface
only reads. -/
theorem runOp_fst (t : Tree Nat) (op : HostOp) : (runOp t op).1 = t := by
  cases op <;> rfl

/-- C7: after the root module is handed to the host, no operation of the
core mutates the tree: running any sequence of host operations on `core`
leaves it exactly as built. -/
theorem c7_tree_immutable_after_build :
    ∀ ops : List HostOp, runOps core ops = core := by
  intro ops
  suffices h : ∀ (t : Tree Nat) (ops : List HostOp), runOps t ops = t from h core ops
  intro t ops
  induction ops generalizing t with
  | nil => rfl
  | cons op rest ih => rw [runOps, runOp_fst, ih]

/-- C8: the extension exposes exactly one externally visible load-time entry
point, `PyInit_core`; it takes no arguments and returns the Root Module
handle `core`. -/
theorem c8_single_entry_point :
    entryPoints.length = 1 ∧
    entryPoints = [("PyInit_core", pyInit_core)] ∧
    pyInit_core () = .ok core :=
  ⟨rfl, rfl, rfl⟩

/-- C9: the two registration layouts for the name `hello_from_bin` diverge:
the nested layout (`coreLayout`, from lib.rs) re-exports the function inside
a `cli` sub-module, while the flat layout binds it with no `cli` node at
all; both build successfully but to different trees, and the layouts
themselves differ. -/
theorem c9_two_divergent_layouts :
    coreLayout ≠ flatCliLayout ∧
    build coreLayout = .ok core ∧
    lookupPath core ["cli", "hello_from_bin"] = some (.func helloFromBinId) ∧
    (∃ t, build flatCliLayout = .ok t ∧
      lookupPath t ["hello_from_bin"] = some (.func helloFromBinId) ∧
      lookupPath t ["cli"] = none) :=
  ⟨by decide, rfl, rfl, ⟨.modl [("hello_from_bin", .func helloFromBinId)], rfl, rfl, rfl⟩⟩

/-- C3: any layout that binds two distinct functions `f1 ≠ f2` at the same
`(path, name)` pair makes `build` fail with a `ConfigError`: no Root Module
is produced and last-write-wins is never silently accepted, whatever other
entries surround the colliding pair. -/
theorem c3_duplicate_binding_rejected (l1 l2 l3 : List (LayoutEntry Nat))
    (p : List String) (n : String) (f1 f2 : Nat) (hne : f1 ≠ f2) :
    ∃ e, build (l1 ++ ⟨p, n, f1⟩ :: l2 ++ ⟨p, n, f2⟩ :: l3) = .error e := by
  unfold build
  rw [buildFrom_append]
  cases hbA : buildFrom (Tree.modl []) (l1 ++ ⟨p, n, f1⟩ :: l2) with
  | error e => exact ⟨e, rfl⟩
  | ok tA =>
    rw [buildFrom_append] at hbA
    split at hbA
    · next t1 hb1 =>
      simp only [buildFrom] at hbA
      split at hbA
      · next t2 hi1 =>
        have hfA : lookupPath tA (p ++ [n]) = some (.func f1) :=
          buildFrom_preserves_fn l2 t2 tA p n f1 hbA
            (insertPath_lookup_self p t1 t2 n f1 hi1)
        obtain ⟨e, he⟩ := insertPath_conflict_error p tA n f2 f1 hfA hne
        refine ⟨e, ?_⟩
        show buildFrom tA (⟨p, n, f2⟩ :: l3) = .error e
        simp only [buildFrom]
        rw [he]
      · cases hbA
    · cases hbA

theorem c3_duplicate_binding_rejected_witness :
    ∃ e, build (([] : List (LayoutEntry Nat)) ++ ⟨[], "f", 0⟩ :: [] ++ ⟨[], "f", 1⟩ :: []) =
      .error e :=
  c3_duplicate_binding_rejected [] [] [] [] "f" 0 1 (by decide)

/-- C4: for every valid layout — pairwise free of `(path, name)` collisions
and of function/module conflicts — `build` succeeds, every declared function
is reachable from the Root Module by its declared full path, and every
initial segment of a declared path exists as a Module Node. -/
theorem c4_valid_layout_builds (layout : List (LayoutEntry Nat))
    (hvalid : layout.Pairwise (fun a b => conflicts a b = false)) :
    ∃ t', build layout = .ok t' ∧
      (∀ e ∈ layout, lookupPath t' (fullPath e) = some (.func e.fn)) ∧
      (∀ e ∈ layout, ∀ q, isInit q e.path = true →
        ∃ es, lookupPath t' q = some (.modl es)) := by
  obtain ⟨t', hb, hfn, hmod, _, _⟩ :=
    buildFrom_spec layout (.modl []) hvalid
      (fun e _ => insertPath_empty_ok e.path e.name e.fn)
  exact ⟨t', hb, hfn, hmod⟩

theorem c4_valid_layout_builds_witness :
    ∃ t', build coreLayout = .ok t' ∧
      (∀ e ∈ coreLayout, lookupPath t' (fullPath e) = some (.func e.fn)) ∧
      (∀ e ∈ coreLayout, ∀ q, isInit q e.path = true →
        ∃ es, lookupPath t' q = some (.modl es)) :=
  c4_valid_layout_builds coreLayout (by decide)

/-- C6: invariants of the constructed tree `core`: keys are unique within
each Module Node, the tree is finite (its node count computes to 4), every
function of the registry appears under at least one Module Node, and the
tree is acyclic: any node reached by a nonempty path is strictly smaller
than the tree it was reached from, so no node is its own descendant. -/
theorem c6_tree_invariants :
    keysOk core = true ∧
    treeSize core = 4 ∧
    (∀ i : Nat, (registry i).isSome → funcOccurs i core = true) ∧
    (∀ r : List String, ∀ t0 : Tree Nat, r ≠ [] → lookupPath core r = some t0 →
      treeSize t0 < treeSize core) := by
  refine ⟨rfl, rfl, ?_, ?_⟩
  · intro i hi
    by_cases h0 : i = 0
    · subst h0
      rfl
    · simp [registry, h0] at hi
  · intro r t0 hr hl
    exact lookupPath_size_lt r core t0 hr hl

theorem c6_tree_invariants_witness :
    funcOccurs 0 core = true ∧ treeSize cli < treeSize core :=
  ⟨c6_tree_invariants.2.2.1 0 (by decide),
   c6_tree_invariants.2.2.2 ["cli"] cli (by decide) rfl⟩

end Astrbox
